import Mathlib

/-!
Shallow embedding of the `eijiro` repository (an English-Japanese dictionary
indexer): the line grammar of `eijiro-parser/src/lib.rs` (`parse_complements`,
`parse_examples`, `parse_field`, `parse`), the dictionary data model, the
snapshot (de)serialization, and the level-0 lookup of `src/main.rs`.

Rust strings are modelled as `String`/`List Char`; for valid UTF-8, byte-wise
lexicographic order coincides with code-point (`Char.toNat`) lexicographic
order, so all "raw byte" comparisons of the source are modelled by the
code-point comparison `strCmp`.

The regular expressions of the source are modelled by explicit left-to-right
scanning functions that implement the leftmost-first (backtracking) match
semantics of the `regex` crate on the concrete patterns of the source.
-/

deriving instance DecidableEq for Except

namespace Eijiro

/-- Marker test: the character class `[◆■]` of the source regexes. -/
def isMarker (c : Char) : Bool := c = '◆' || c = '■'

/-- Rust's `Ord` on integers, as a three-way comparison. -/
def natCmp (a b : Nat) : Ordering :=
  if a < b then .lt else if a = b then .eq else .gt

/-- Rust's `Ord` on `char`/bytes: comparison of code points. -/
def charCmp (a b : Char) : Ordering := natCmp a.toNat b.toNat

/-- Rust's derived `Ord` on `Vec<T>`/`String`: lexicographic, a strict
prefix is smaller. -/
def listCmp (f : α → α → Ordering) : List α → List α → Ordering
  | [], [] => .eq
  | [], _ :: _ => .lt
  | _ :: _, [] => .gt
  | a :: as, b :: bs => (f a b).then (listCmp f as bs)

/-- Rust's `Ord` on `String` (byte-lexicographic, modelled on code points). -/
def strCmp (a b : String) : Ordering := listCmp charCmp a.data b.data

/-- Rust's derived `Ord` on `Option<T>`: `None < Some _`. -/
def optCmp (f : α → α → Ordering) : Option α → Option α → Ordering
  | none, none => .eq
  | none, some _ => .lt
  | some _, none => .gt
  | some a, some b => f a b

/-- Rust `struct Complement { body: String }` of `eijiro-parser/src/lib.rs`. -/
structure Complement where
  body : String
  deriving DecidableEq, Repr

/-- Rust `struct Explanation { body, complements }` of `eijiro-parser/src/lib.rs`. -/
structure Explanation where
  body : String
  complements : List Complement
  deriving DecidableEq, Repr

/-- Rust `struct Example { sentence, complements }` of `eijiro-parser/src/lib.rs`. -/
structure Example where
  sentence : String
  complements : List Complement
  deriving DecidableEq, Repr

/-- Rust `struct Field { ident, explanation, examples }` of
`eijiro-parser/src/lib.rs`. -/
structure Field where
  ident : Option String
  explanation : Explanation
  examples : List Example
  deriving DecidableEq, Repr

/-- Derived `Ord` on `Complement`. -/
def Complement.cmp (a b : Complement) : Ordering := strCmp a.body b.body

/-- Derived `Ord` on `Explanation` (field by field). -/
def Explanation.cmp (a b : Explanation) : Ordering :=
  (strCmp a.body b.body).then (listCmp Complement.cmp a.complements b.complements)

/-- Derived `Ord` on `Example` (field by field). -/
def Example.cmp (a b : Example) : Ordering :=
  (strCmp a.sentence b.sentence).then (listCmp Complement.cmp a.complements b.complements)

/-- Derived `Ord` on `Field`: `ident`, then `explanation`, then `examples`. -/
def Field.cmp (a b : Field) : Ordering :=
  (optCmp strCmp a.ident b.ident).then
    ((Explanation.cmp a.explanation b.explanation).then
      (listCmp Example.cmp a.examples b.examples))

/-- One parsed corpus entry `(headword, Field, line_no)` as collected by
`parse` before sorting. -/
abbrev Entry := String × Field × Nat

/-- Derived `Ord` on the tuple `(String, Field, usize)`. -/
def entryCmp (a b : Entry) : Ordering :=
  (strCmp a.1 b.1).then ((Field.cmp a.2.1 b.2.1).then (natCmp a.2.2 b.2.2))

/-- The (non-strict) order used by `tmp.sort()` in `parse`. -/
def entryLe (a b : Entry) : Prop := entryCmp a b ≠ Ordering.gt

instance : DecidableRel entryLe := fun a b => by unfold entryLe; infer_instance

/-! ### The complement grammar: regex `◆([^◆■]+)` with `captures_iter`

`pcAux st cs` scans `cs` left to right.  The state `st` is `none` while
searching for the next `◆`, and `some acc` (with `acc` the reversed run read
so far) after a `◆`.  A run is emitted only when non-empty, exactly as the
regex (whose capture group is `[^◆■]+`) only matches non-empty runs. -/

/-- Emit the pending (reversed) run if it is non-empty. -/
def pcFlush : Option (List Char) → List Complement
  | none => []
  | some acc => if acc.isEmpty then [] else [⟨⟨acc.reverse⟩⟩]

/-- Scanner for all matches of `◆([^◆■]+)` in left-to-right order. -/
def pcAux : Option (List Char) → List Char → List Complement
  | st, [] => pcFlush st
  | st, c :: rest =>
    if c = '◆' then pcFlush st ++ pcAux (some []) rest
    else if c = '■' then pcFlush st ++ pcAux none rest
    else
      match st with
      | none => pcAux none rest
      | some acc => pcAux (some (c :: acc)) rest

/-- Model of `parse_complements` of `eijiro-parser/src/lib.rs`: every match of
`◆([^◆■]+)`, in order. -/
def parse_complements (cs : List Char) : List Complement := pcAux none cs

/-! ### The example grammar: regex `■([^◆■]+)(?P<complements>(◆[^◆■]+)+)?`

State machine for `captures_iter`: `out` scans for `■`; `sent acc` reads the
sentence; `grp s gacc pending` reads the greedy complements group (`gacc` is
the group text read so far, reversed; `pending` records a `◆` whose
(mandatory, non-empty) run has not started yet, hence is not yet part of the
group).  Each emitted example applies `parse_complements` to its captured
group text, exactly as the source does. -/

/-- Scanner state for the example regex. -/
inductive PeSt where
  | out : PeSt
  | sent (acc : List Char) : PeSt
  | grp (s : List Char) (gacc : List Char) (pending : Bool) : PeSt
  deriving DecidableEq, Repr

/-- Emit the example collected in the current state, if any. -/
def peFlush : PeSt → List Example
  | .out => []
  | .sent acc => if acc.isEmpty then [] else [⟨⟨acc.reverse⟩, []⟩]
  | .grp s gacc _ => [⟨⟨s.reverse⟩, parse_complements gacc.reverse⟩]

/-- Scanner for all matches of the example regex, in left-to-right order. -/
def peAux : PeSt → List Char → List Example
  | st, [] => peFlush st
  | .out, c :: rest =>
    if c = '■' then peAux (.sent []) rest else peAux .out rest
  | .sent acc, c :: rest =>
    if c = '■' then peFlush (.sent acc) ++ peAux (.sent []) rest
    else if c = '◆' then
      if acc.isEmpty then peAux .out rest
      else peAux (.grp acc [] true) rest
    else peAux (.sent (c :: acc)) rest
  | .grp s gacc pending, c :: rest =>
    if c = '■' then peFlush (.grp s gacc pending) ++ peAux (.sent []) rest
    else if c = '◆' then
      if pending then peFlush (.grp s gacc pending) ++ peAux .out rest
      else peAux (.grp s gacc true) rest
    else
      if pending then peAux (.grp s (c :: '◆' :: gacc) false) rest
      else peAux (.grp s (c :: gacc) false) rest

/-- Model of `parse_examples` of `eijiro-parser/src/lib.rs`: every match of
`■([^◆■]+)((◆[^◆■]+)+)?`, in order. -/
def parse_examples (cs : List Char) : List Example := peAux .out cs

/-! ### The field grammar

Regex `■(?P<item>.+?)(?: +\x7b(?P<ident>.+)\x7d)? : (?P<exp>[^◆■]*)`
`(?P<complements>(?:◆[^◆■]+)*)(?P<examples>(■.+)*)`, searched (unanchored)
by `RE.captures`.  Once `■`, the lazy `item`, the optional ident group and
the literal `" : "` have matched, the remaining groups always succeed, so
the backtracking search reduces to: leftmost start position, then shortest
item, preferring the ident branch (the optional group is greedy). -/

/-- Does the text start with the literal `" : "`? -/
def startsWithSep : List Char → Bool
  | a :: b :: c :: _ => a = ' ' && b = ':' && c = ' '
  | _ => false

/-- Greedy `.+` of the ident group: the chars before the last brace `.\x7d`
that is directly followed by `" : "`, together with the text after that
separator.  Preferring the recursive (later) candidate implements the greedy
backtracking of `.+`. -/
def lastBraceAux : List Char → Option (List Char × List Char)
  | [] => none
  | c :: rest =>
    match lastBraceAux rest with
    | some (pre, rem) => some (c :: pre, rem)
    | none =>
      if c = '}' then
        if startsWithSep rest then some ([], rest.drop 3) else none
      else none

/-- The optional ident branch `(?: +\x7b(?P<ident>.+)\x7d)` followed by
`" : "`: maximal run of spaces, a brace, a non-empty greedy ident, a closing
brace, the separator.  Returns `(ident, text after the separator)`. -/
def tryIdent (cs : List Char) : Option (List Char × List Char) :=
  let sp := cs.takeWhile (fun c => c = ' ')
  if sp.isEmpty then none
  else
    match cs.drop sp.length with
    | b :: r2 =>
      if b = '{' then
        match lastBraceAux r2 with
        | some (pre, rem) => if pre.isEmpty then none else some (pre, rem)
        | none => none
      else none
    | [] => none

/-- The plain separator branch: the literal `" : "` directly after the item. -/
def trySep (cs : List Char) : Option (List Char) :=
  if startsWithSep cs then some (cs.drop 3) else none

/-- Lazy extension of `item` (`.+?`): for the current (non-empty, reversed)
item, first try the ident branch, then the bare separator, and only when both
fail grow the item by one character. -/
def scanItem (itemRev : List Char) : List Char → Option (List Char × Option (List Char) × List Char)
  | [] => none
  | c :: rest' =>
    match tryIdent (c :: rest') with
    | some (id, rem) => some (itemRev.reverse, some id, rem)
    | none =>
      match trySep (c :: rest') with
      | some rem => some (itemRev.reverse, none, rem)
      | none => scanItem (c :: itemRev) rest'

/-- State of the complements-group scanner: expecting a `◆` (start of a
repetition), just after a `◆` whose mandatory run has not started, or inside
a run `[^◆■]+`. -/
inductive CgSt where
  | idle : CgSt
  | pending : CgSt
  | run : CgSt
  deriving DecidableEq, Repr

/-- The greedy complements group `(?:◆[^◆■]+)*` at the start of the text:
returns `(group text, remaining text)`.  `gacc` is the group text matched so
far (reversed); a pending `◆` is not part of the group until its run starts. -/
def cgAux (gacc : List Char) : CgSt → List Char → List Char × List Char
  | st, [] => (gacc.reverse, if st = .pending then ['◆'] else [])
  | .idle, c :: rest =>
    if c = '◆' then cgAux gacc .pending rest else (gacc.reverse, c :: rest)
  | .pending, c :: rest =>
    if isMarker c then (gacc.reverse, '◆' :: c :: rest)
    else cgAux (c :: '◆' :: gacc) .run rest
  | .run, c :: rest =>
    if c = '◆' then cgAux gacc .pending rest
    else if c = '■' then (gacc.reverse, c :: rest)
    else cgAux (c :: gacc) .run rest

/-- The text captured by the `complements` group, and the rest. -/
def cgText (cs : List Char) : List Char × List Char := cgAux [] .idle cs

/-- The text captured by the `examples` group `(■.+)*`: the whole remaining
text when it starts with `■` followed by at least one character, else empty. -/
def exText (cs : List Char) : List Char :=
  match cs with
  | c :: _ :: _ => if c = '■' then cs else []
  | _ => []

/-- Build the `(headword, Field)` of a successful match from the item, the
optional ident and the text after the separator. -/
def mkField (item : List Char) (ident : Option (List Char)) (rem : List Char) :
    String × Field :=
  let exp := rem.takeWhile (fun c => ¬ isMarker c)
  let after := rem.drop exp.length
  let cg := cgText after
  (⟨item⟩,
    { ident := ident.map (fun l => (⟨l⟩ : String))
      explanation := { body := ⟨exp⟩, complements := parse_complements cg.1 }
      examples := parse_examples (exText cg.2) })

/-- One match attempt at the current position: the pattern starts with `■`
and a non-empty lazy item. -/
def matchAt : List Char → Option (String × Field)
  | c :: d :: rest =>
    if c = '■' then
      match scanItem [d] rest with
      | some (item, id, rem) => some (mkField item id rem)
      | none => none
    else none
  | _ => none

/-- Leftmost match of the field regex (`RE.captures`). -/
def ffScan : List Char → Option (String × Field)
  | [] => none
  | c :: rest =>
    match matchAt (c :: rest) with
    | some r => some r
    | none => ffScan rest

/-- Model of `parse_field` of `eijiro-parser/src/lib.rs`. -/
def parse_field (cs : List Char) : Except String (String × Field) :=
  match ffScan cs with
  | some r => .ok r
  | none => .error "Invalid field format"

/-! ### Lines

Model of Rust's `str::lines`: split after every `'\n'` keeping the
terminator with its segment and producing no trailing empty segment, then
strip a trailing `'\n'` and, only when one was stripped, a trailing `'\r'`. -/

/-- Model of `str::split_inclusive('\n')`. -/
def splitInclusiveNl : List Char → List (List Char)
  | [] => []
  | c :: rest =>
    if c = '\n' then [c] :: splitInclusiveNl rest
    else
      match splitInclusiveNl rest with
      | [] => [[c]]
      | l :: ls => (c :: l) :: ls

/-- Strip one trailing `'\n'`, and then one trailing `'\r'` if the `'\n'`
was there. -/
def stripNlCr (l : List Char) : List Char :=
  match l.reverse with
  | c :: r2 =>
    if c = '\n' then
      match r2 with
      | d :: r3 => if d = '\r' then r3.reverse else r2.reverse
      | [] => []
    else l
  | [] => l

/-- Rust's `text.lines()`. -/
def rustLines (cs : List Char) : List (List Char) :=
  (splitInclusiveNl cs).map stripNlCr

/-! ### The dictionary and its builder (`parse` of `eijiro-parser/src/lib.rs`)

The sorted minimal transducer (`fst::Map`) is modelled, per the spec's
"opaque automaton blob" note, as its sorted association list
`List (String × Nat)`. -/

/-- Error values produced by `parse`: the `anyhow` messages
`"line {}: {}"` (a failing corpus line) and `"[line {}]: {}"` (a failing
transducer insertion). -/
inductive EijiroError where
  | lineError (lineNo : Nat) (msg : String) : EijiroError
  | insertError (lineNo : Nat) (msg : String) : EijiroError
  deriving DecidableEq, Repr

/-- Rust `struct Dict { keys: Map<Vec<u8>>, fields: Vec<Vec<Field>> }`. -/
structure Dict where
  keys : List (String × Nat)
  fields : List (List Field)
  deriving DecidableEq, Repr

/-- The enumerated per-line parsing pass of `parse` (`lines().enumerate()`
mapped through `parse_field`, collected into the first error if any). -/
def parseLines (n : Nat) : List (List Char) → Except EijiroError (List Entry)
  | [] => .ok []
  | l :: ls =>
    match parse_field l with
    | .error e => .error (.lineError n e)
    | .ok (k, f) =>
      match parseLines (n + 1) ls with
      | .error e => .error e
      | .ok rest => .ok ((k, f, n) :: rest)

/-- Modelled from the spec: `fst::MapBuilder::insert`, which accepts a key
only if it is strictly greater (byte-lexicographically) than the last
inserted key, and otherwise reports an out-of-order / duplicate error. -/
def mbInsert (m : List (String × Nat)) (k : String) (v : Nat) :
    Except String (List (String × Nat)) :=
  match m.getLast? with
  | none => .ok (m ++ [(k, v)])
  | some (k', _) =>
    if strCmp k' k = .lt then .ok (m ++ [(k, v)])
    else .error "out-of-order or duplicate key"

/-- Model of `fields.last_mut().unwrap().push(f)`: append to the last group.  (On an
empty list the source would panic; the builder never reaches that state.) -/
def pushOnLast (fs : List (List Field)) (f : Field) : List (List Field) :=
  fs.dropLast ++ [(fs.getLast?.getD []) ++ [f]]

/-- The grouping loop of `parse` over the sorted entry list: open a new
group whenever the headword changes, then push the field onto the last
group. -/
def buildLoop :
    List Entry → List (String × Nat) → Option String → List (List Field) →
      Except EijiroError (List (String × Nat) × List (List Field))
  | [], m, _, fs => .ok (m, fs)
  | (k, f, n) :: rest, m, prevKey, fs =>
    let newKey : Bool := match prevKey with
      | some p => p ≠ k
      | none => true
    if newKey then
      match mbInsert m k fs.length with
      | .error e => .error (.insertError n e)
      | .ok m' => buildLoop rest m' (some k) (pushOnLast (fs ++ [[]]) f)
    else buildLoop rest m prevKey (pushOnLast fs f)

/-- The entry sort `tmp.sort()` of `parse`: a stable sort by the derived
order on `(String, Field, usize)`.  (Rust's stable sort is modelled by
insertion sort; for the total preorder `entryLe` all stable sorts agree.) -/
def sortEntries (es : List Entry) : List Entry := es.insertionSort entryLe

/-- Model of `parse` of `eijiro-parser/src/lib.rs`. -/
def parse (text : String) : Except EijiroError Dict :=
  match parseLines 0 (rustLines text.data) with
  | .error e => .error e
  | .ok tmp =>
    match buildLoop (sortEntries tmp) [] none [] with
    | .error e => .error e
    | .ok (m, fs) => .ok ⟨m, fs⟩

/-! ### Lookup (`main` of `src/main.rs`)

The `fst::automaton::Levenshtein` matcher intersected with the map is
modelled from the spec: it yields, in sorted order, exactly the keys within
the given edit distance of the query. -/

/-- Levenshtein distance with explicit fuel (any fuel of at least
`xs.length + ys.length` gives the distance). -/
def levF : Nat → List Char → List Char → Nat
  | _, [], ys => ys.length
  | _, x :: xs, [] => (x :: xs).length
  | 0, _ :: _, _ :: _ => 0
  | fuel + 1, x :: xs, y :: ys =>
    if x = y then levF fuel xs ys
    else 1 + min (levF fuel xs ys) (min (levF fuel (x :: xs) ys) (levF fuel xs (y :: ys)))

/-- Levenshtein edit distance (insertions, deletions, substitutions). -/
def lev (xs ys : List Char) : Nat := levF (xs.length + ys.length) xs ys

/-- Modelled from the spec: the lookup of `src/main.rs` — stream every
`(headword, group)` of the dictionary whose headword is within `maxEdits`
edits of the query, in the map's sorted order. -/
def search (d : Dict) (q : String) (maxEdits : Nat) : List (String × List Field) :=
  (d.keys.filter (fun kv => lev q.data kv.1.data ≤ maxEdits)).map
    (fun kv => (kv.1, d.fields.getD kv.2 []))

/-! ### Snapshot (de)serialization

The `Serialize`/`Deserialize` impls for `Dict` write the transducer's byte
blob and the field-group table.  `bincode` primitives (length-prefixed
sequences, tagged options) and the `fst` blob layout are external to the
repository, so the byte level is modelled from the spec as token lists:
a token is a length, a tag, a code point, or a group id. -/

/-- Modelled from the spec: bincode string = length prefix + code points. -/
def encStr (s : String) : List Nat := s.data.length :: s.data.map Char.toNat

/-- Modelled from the spec: bincode sequence = length prefix + elements. -/
def encList (enc : α → List Nat) (xs : List α) : List Nat :=
  xs.length :: (xs.map enc).flatten

/-- Modelled from the spec: bincode `Option` = tag + payload. -/
def encOpt : Option String → List Nat
  | none => [0]
  | some s => 1 :: encStr s

/-- Serialization of one `Complement`. -/
def encComplement (c : Complement) : List Nat := encStr c.body

/-- Serialization of one `Explanation`. -/
def encExplanation (e : Explanation) : List Nat :=
  encStr e.body ++ encList encComplement e.complements

/-- Serialization of one `Example`. -/
def encExample (e : Example) : List Nat :=
  encStr e.sentence ++ encList encComplement e.complements

/-- Serialization of one `Field` (`ident`, `explanation`, `examples`). -/
def encField (f : Field) : List Nat :=
  encOpt f.ident ++ encExplanation f.explanation ++ encList encExample f.examples

/-- Modelled from the spec: the sorted-automaton blob of `fst::Map` is an
opaque encoding of its sorted key/value list. -/
def fstEncode (m : List (String × Nat)) : List Nat :=
  encList (fun kv => encStr kv.1 ++ [kv.2]) m

/-- Model of `impl Serialize for Dict`: the blob as a byte vector, then the groups
table. -/
def save (d : Dict) : List Nat :=
  let kb := fstEncode d.keys
  kb.length :: kb ++ encList (encList encField) d.fields

/-- Read one length token. -/
def decNat : List Nat → Option (Nat × List Nat)
  | [] => none
  | n :: rest => some (n, rest)

/-- Read `n` tokens, failing when the declared length exceeds the buffer. -/
def decTake (n : Nat) (bs : List Nat) : Option (List Nat × List Nat) :=
  if n ≤ bs.length then some (bs.take n, bs.drop n) else none

/-- Decode a string: length prefix, then that many valid code points. -/
def decStr (bs : List Nat) : Option (String × List Nat) :=
  match decNat bs with
  | none => none
  | some (n, rest) =>
    match decTake n rest with
    | none => none
    | some (cs, rest2) =>
      if cs.all (fun t => decide t.isValidChar) then
        some (⟨cs.map Char.ofNat⟩, rest2)
      else none

/-- Decode `n` consecutive elements. -/
def decListAux (dec : List Nat → Option (α × List Nat)) :
    Nat → List Nat → Option (List α × List Nat)
  | 0, bs => some ([], bs)
  | n + 1, bs =>
    match dec bs with
    | none => none
    | some (a, rest) =>
      match decListAux dec n rest with
      | none => none
      | some (as, rest2) => some (a :: as, rest2)

/-- Decode a length-prefixed sequence. -/
def decList (dec : List Nat → Option (α × List Nat)) (bs : List Nat) :
    Option (List α × List Nat) :=
  match decNat bs with
  | none => none
  | some (n, rest) => decListAux dec n rest

/-- Decode a bincode `Option<String>`. -/
def decOpt (bs : List Nat) : Option (Option String × List Nat) :=
  match bs with
  | 0 :: rest => some (none, rest)
  | 1 :: rest =>
    match decStr rest with
    | none => none
    | some (s, rest2) => some (some s, rest2)
  | _ => none

/-- Decode one `Complement`. -/
def decComplement (bs : List Nat) : Option (Complement × List Nat) :=
  match decStr bs with
  | none => none
  | some (s, rest) => some (⟨s⟩, rest)

/-- Decode one `Explanation`. -/
def decExplanation (bs : List Nat) : Option (Explanation × List Nat) :=
  match decStr bs with
  | none => none
  | some (b, rest) =>
    match decList decComplement rest with
    | none => none
    | some (cs, rest2) => some (⟨b, cs⟩, rest2)

/-- Decode one `Example`. -/
def decExample (bs : List Nat) : Option (Example × List Nat) :=
  match decStr bs with
  | none => none
  | some (b, rest) =>
    match decList decComplement rest with
    | none => none
    | some (cs, rest2) => some (⟨b, cs⟩, rest2)

/-- Decode one `Field`. -/
def decField (bs : List Nat) : Option (Field × List Nat) :=
  match decOpt bs with
  | none => none
  | some (id, rest) =>
    match decExplanation rest with
    | none => none
    | some (ex, rest2) =>
      match decList decExample rest2 with
      | none => none
      | some (exs, rest3) => some (⟨id, ex, exs⟩, rest3)

/-- Decode one key/value pair of the transducer blob. -/
def decKV (bs : List Nat) : Option ((String × Nat) × List Nat) :=
  match decStr bs with
  | none => none
  | some (k, rest) =>
    match decNat rest with
    | none => none
    | some (v, rest2) => some ((k, v), rest2)

/-- Are the keys strictly increasing (the sortedness of a valid
`fst` automaton)? -/
def incKeys : List (String × Nat) → Bool
  | [] => true
  | [_] => true
  | a :: b :: rest => (strCmp a.1 b.1 = Ordering.lt) && incKeys (b :: rest)

/-- Modelled from the spec: `fst::Map::new` — the blob must decode exactly
to a strictly sorted key/value list. -/
def fstDecode (bs : List Nat) : Option (List (String × Nat)) :=
  match decList decKV bs with
  | none => none
  | some (m, rest) => if rest = [] && incKeys m then some m else none

/-- Outcome of `bincode::deserialize::<Dict>`: a dictionary, a typed
deserialization error, or a crash of the process. -/
inductive LoadResult where
  | ok (d : Dict) : LoadResult
  | err (msg : String) : LoadResult
  | panicked : LoadResult
  deriving DecidableEq, Repr

/-- Model of `impl Deserialize for Dict` (`DictVisitor::visit_seq`): read the blob
byte vector (typed error on a truncated buffer), rebuild the map with
`Map::new(keys_bytes).unwrap()` (a panic when the blob is invalid), then
read the groups table (typed error when malformed). -/
def load (bs : List Nat) : LoadResult :=
  match decNat bs with
  | none => .err "invalid length 0, expected struct Dict with 2 elements"
  | some (n, rest) =>
    match decTake n rest with
    | none => .err "unexpected end of buffer"
    | some (kb, rest2) =>
      match fstDecode kb with
      | none => .panicked
      | some keys =>
        match decList (decList decField) rest2 with
        | none => .err "invalid groups table"
        | some (fields, _) => .ok ⟨keys, fields⟩

/-- Does the text contain the literal `" : "` anywhere? -/
def hasSepSub : List Char → Bool
  | [] => false
  | c :: rest => startsWithSep (c :: rest) || hasSepSub rest

/-- The marker-freeness invariant of a `peAux` state. -/
def PeStOk : PeSt → Prop
  | .out => True
  | .sent acc => ∀ ch ∈ acc, isMarker ch = false
  | .grp s _ _ => s ≠ [] ∧ ∀ ch ∈ s, isMarker ch = false

/-- Property asserted of every emitted example. -/
def ExOk (ex : Example) : Prop :=
  ex.sentence.data ≠ [] ∧ (∀ ch ∈ ex.sentence.data, isMarker ch = false) ∧
    ∀ comp ∈ ex.complements,
      comp.body.data ≠ [] ∧ ∀ ch ∈ comp.body.data, isMarker ch = false

/-- Strict key order on transducer entries. -/
def ltKey (a b : String × Nat) : Prop := strCmp a.1 b.1 = Ordering.lt

/-- Non-strict key order on parsed entries. -/
def leKey (a b : Entry) : Prop := strCmp a.1 b.1 ≠ Ordering.gt

/-- The laws making a three-way comparison a total preorder comparison:
exactness of `eq`, antisymmetry of the result, transitivity. -/
structure IsLawfulCmp (f : α → α → Ordering) : Prop where
  eq_iff : ∀ a b, f a b = Ordering.eq ↔ a = b
  swap_eq : ∀ a b, (f a b).swap = f b a
  lt_trans : ∀ a b c, f a b = Ordering.lt → f b c = Ordering.lt → f a c = Ordering.lt

/-- Pair comparison, first component then second. -/
def pairCmp (f : α → α → Ordering) (g : β → β → Ordering) (a b : α × β) : Ordering :=
  (f a.1 b.1).then (g a.2 b.2)

/-! ## Theorems

### The comparison functions are lawful total-preorder comparisons -/

theorem then_eq_eq {o p : Ordering} : o.then p = Ordering.eq ↔ o = .eq ∧ p = .eq := by
  cases o <;> simp [Ordering.then]

theorem then_swap (o p : Ordering) : (o.then p).swap = o.swap.then p.swap := by
  cases o <;> simp [Ordering.then, Ordering.swap]

theorem swap_eq_iff {o p : Ordering} : o.swap = p ↔ o = p.swap := by
  cases o <;> cases p <;> simp [Ordering.swap]

theorem IsLawfulCmp.refl_eq {f : α → α → Ordering} (h : IsLawfulCmp f) (a : α) :
    f a a = .eq := (h.eq_iff a a).mpr rfl

theorem IsLawfulCmp.gt_iff_lt {f : α → α → Ordering} (h : IsLawfulCmp f) (a b : α) :
    f a b = .gt ↔ f b a = .lt := by
  rw [← h.swap_eq a b, swap_eq_iff]; rfl

theorem IsLawfulCmp.not_gt_iff {f : α → α → Ordering} (h : IsLawfulCmp f) (a b : α) :
    f a b ≠ .gt ↔ f a b = .lt ∨ a = b := by
  rw [← h.eq_iff]
  cases f a b <;> simp

theorem IsLawfulCmp.le_trans {f : α → α → Ordering} (h : IsLawfulCmp f) {a b c : α}
    (hab : f a b ≠ .gt) (hbc : f b c ≠ .gt) : f a c ≠ .gt := by
  rw [h.not_gt_iff] at hab hbc ⊢
  rcases hab with hab | rfl
  · rcases hbc with hbc | rfl
    · exact Or.inl (h.lt_trans _ _ _ hab hbc)
    · exact Or.inl hab
  · exact hbc

theorem IsLawfulCmp.le_total {f : α → α → Ordering} (h : IsLawfulCmp f) (a b : α) :
    f a b ≠ .gt ∨ f b a ≠ .gt := by
  by_cases hg : f a b = .gt
  · right
    rw [h.not_gt_iff]
    exact Or.inl ((h.gt_iff_lt a b).mp hg)
  · exact Or.inl hg

theorem IsLawfulCmp.lt_of_lt_of_le {f : α → α → Ordering} (h : IsLawfulCmp f) {a b c : α}
    (hab : f a b = .lt) (hbc : f b c ≠ .gt) : f a c = .lt := by
  rcases (h.not_gt_iff b c).mp hbc with hbc | rfl
  · exact h.lt_trans _ _ _ hab hbc
  · exact hab

theorem IsLawfulCmp.ne_of_lt {f : α → α → Ordering} (h : IsLawfulCmp f) {a b : α}
    (hab : f a b = .lt) : a ≠ b := by
  intro hx
  rw [hx, h.refl_eq] at hab
  simp at hab

theorem lawful_natCmp : IsLawfulCmp natCmp := by
  constructor
  · intro a b
    unfold natCmp
    split_ifs <;> simp <;> omega
  · intro a b
    unfold natCmp
    split_ifs <;> simp [Ordering.swap] <;> omega
  · intro a b c hab hbc
    unfold natCmp at *
    split_ifs at * <;> simp_all <;> omega

theorem lawful_ofInj {f : β → β → Ordering} (e : α → β) (he : Function.Injective e)
    (hf : IsLawfulCmp f) : IsLawfulCmp (fun a b => f (e a) (e b)) := by
  constructor
  · intro a b
    simp only [hf.eq_iff]
    exact ⟨fun h => he h, fun h => h ▸ rfl⟩
  · intro a b
    exact hf.swap_eq _ _
  · intro a b c
    exact hf.lt_trans _ _ _

theorem lawful_charCmp : IsLawfulCmp charCmp :=
  lawful_ofInj Char.toNat (fun a b h => by
    rw [← Char.ofNat_toNat a, ← Char.ofNat_toNat b, h]) lawful_natCmp

theorem lawful_pairCmp {f : α → α → Ordering} {g : β → β → Ordering}
    (hf : IsLawfulCmp f) (hg : IsLawfulCmp g) : IsLawfulCmp (pairCmp f g) := by
  constructor
  · intro a b
    simp only [pairCmp, then_eq_eq, hf.eq_iff, hg.eq_iff, Prod.ext_iff]
  · intro a b
    simp only [pairCmp, then_swap, hf.swap_eq, hg.swap_eq]
  · intro a b c hab hbc
    simp only [pairCmp] at *
    rcases h1 : f a.1 b.1 <;> rw [h1] at hab <;> simp [Ordering.then] at hab
    · rcases h2 : f b.1 c.1 <;> rw [h2] at hbc <;> simp [Ordering.then] at hbc
      · simp [Ordering.then, hf.lt_trans _ _ _ h1 h2]
      · rw [(hf.eq_iff _ _).mp h2] at h1
        simp [Ordering.then, h1]
    · rcases h2 : f b.1 c.1 <;> rw [h2] at hbc <;> simp [Ordering.then] at hbc
      · rw [(hf.eq_iff _ _).mp h1]
        simp [Ordering.then, h2]
      · rw [(hf.eq_iff _ _).mp h1, (hf.eq_iff _ _).mp h2]
        simp [Ordering.then, hf.refl_eq, hg.lt_trans _ _ _ hab hbc]

theorem lawful_listCmp {f : α → α → Ordering} (hf : IsLawfulCmp f) :
    IsLawfulCmp (listCmp f) := by
  constructor
  · intro a b
    induction a generalizing b with
    | nil => cases b <;> simp [listCmp]
    | cons x xs ih =>
      cases b with
      | nil => simp [listCmp]
      | cons y ys => simp [listCmp, then_eq_eq, hf.eq_iff, ih]
  · intro a b
    induction a generalizing b with
    | nil => cases b <;> simp [listCmp, Ordering.swap]
    | cons x xs ih =>
      cases b with
      | nil => simp [listCmp, Ordering.swap]
      | cons y ys => simp [listCmp, then_swap, hf.swap_eq, ih]
  · intro a b c hab hbc
    induction a generalizing b c with
    | nil =>
      cases b with
      | nil => exact hbc
      | cons y ys =>
        cases c with
        | nil => simp [listCmp] at hbc
        | cons z zs => simp [listCmp]
    | cons x xs ih =>
      cases b with
      | nil => simp [listCmp] at hab
      | cons y ys =>
        cases c with
        | nil => simp [listCmp] at hbc
        | cons z zs =>
          simp only [listCmp] at *
          rcases h1 : f x y <;> rw [h1] at hab <;> simp [Ordering.then] at hab
          · rcases h2 : f y z <;> rw [h2] at hbc <;> simp [Ordering.then] at hbc
            · simp [Ordering.then, hf.lt_trans _ _ _ h1 h2]
            · rw [(hf.eq_iff _ _).mp h2] at h1
              simp [Ordering.then, h1]
          · rcases h2 : f y z <;> rw [h2] at hbc <;> simp [Ordering.then] at hbc
            · rw [(hf.eq_iff _ _).mp h1]
              simp [Ordering.then, h2]
            · rw [(hf.eq_iff _ _).mp h1, (hf.eq_iff _ _).mp h2]
              simp only [hf.refl_eq, Ordering.then]
              exact ih ys zs hab hbc

theorem lawful_strCmp : IsLawfulCmp strCmp :=
  lawful_ofInj String.data (fun a b h => String.ext h) (lawful_listCmp lawful_charCmp)

theorem lawful_optCmp {f : α → α → Ordering} (hf : IsLawfulCmp f) :
    IsLawfulCmp (optCmp f) := by
  constructor
  · intro a b
    cases a <;> cases b <;> simp [optCmp, hf.eq_iff]
  · intro a b
    cases a <;> cases b
    · rfl
    · rfl
    · rfl
    · exact hf.swap_eq _ _
  · intro a b c hab hbc
    cases a <;> cases b <;> cases c <;> simp_all [optCmp]
    exact hf.lt_trans _ _ _ hab hbc

theorem lawful_ComplementCmp : IsLawfulCmp Complement.cmp :=
  lawful_ofInj Complement.body (fun a b h => by cases a; cases b; simpa using h)
    lawful_strCmp

theorem lawful_ExplanationCmp : IsLawfulCmp Explanation.cmp :=
  lawful_ofInj (fun e : Explanation => (e.body, e.complements))
    (fun a b h => by cases a; cases b; simpa [Prod.ext_iff] using h)
    (lawful_pairCmp lawful_strCmp (lawful_listCmp lawful_ComplementCmp))

theorem lawful_ExampleCmp : IsLawfulCmp Example.cmp :=
  lawful_ofInj (fun e : Example => (e.sentence, e.complements))
    (fun a b h => by cases a; cases b; simpa [Prod.ext_iff] using h)
    (lawful_pairCmp lawful_strCmp (lawful_listCmp lawful_ComplementCmp))

theorem lawful_FieldCmp : IsLawfulCmp Field.cmp :=
  lawful_ofInj (fun f : Field => (f.ident, f.explanation, f.examples))
    (fun a b h => by cases a; cases b; simpa [Prod.ext_iff] using h)
    (lawful_pairCmp (lawful_optCmp lawful_strCmp)
      (lawful_pairCmp lawful_ExplanationCmp (lawful_listCmp lawful_ExampleCmp)))

theorem lawful_entryCmp : IsLawfulCmp entryCmp :=
  lawful_pairCmp lawful_strCmp (lawful_pairCmp lawful_FieldCmp lawful_natCmp)

/-! ### Non-emptiness and marker-freeness of scanned components (C9) -/

theorem pcFlush_mem {st : Option (List Char)}
    (hst : ∀ acc, st = some acc → ∀ ch ∈ acc, isMarker ch = false)
    {comp : Complement} (h : comp ∈ pcFlush st) :
    comp.body.data ≠ [] ∧ ∀ ch ∈ comp.body.data, isMarker ch = false := by
  cases st with
  | none => simp [pcFlush] at h
  | some acc =>
    simp only [pcFlush] at h
    split at h
    · simp at h
    · rename_i hne
      simp only [List.mem_singleton] at h
      subst h
      refine ⟨by simpa [List.isEmpty_iff] using hne, ?_⟩
      intro ch hch
      simp only [List.mem_reverse] at hch
      exact hst acc rfl ch hch

theorem pcAux_mem (cs : List Char) : ∀ (st : Option (List Char)),
    (∀ acc, st = some acc → ∀ ch ∈ acc, isMarker ch = false) →
    ∀ comp ∈ pcAux st cs,
      comp.body.data ≠ [] ∧ ∀ ch ∈ comp.body.data, isMarker ch = false := by
  induction cs with
  | nil =>
    intro st hst comp h
    exact pcFlush_mem hst h
  | cons c rest ih =>
    intro st hst comp h
    simp only [pcAux] at h
    split at h
    · rcases List.mem_append.mp h with h | h
      · exact pcFlush_mem hst h
      · refine ih (some []) ?_ comp h
        intro acc hacc ch hch
        cases hacc
        simp at hch
    · split at h
      · rcases List.mem_append.mp h with h | h
        · exact pcFlush_mem hst h
        · refine ih none ?_ comp h
          intro acc hacc
          simp at hacc
      · rename_i hc1 hc2
        cases st with
        | none =>
          refine ih none ?_ comp h
          intro acc hacc
          simp at hacc
        | some acc =>
          refine ih (some (c :: acc)) ?_ comp h
          intro acc' hacc' ch hch
          cases hacc'
          rcases List.mem_cons.mp hch with rfl | hch
          · simp [isMarker, hc1, hc2]
          · exact hst acc rfl ch hch

theorem peFlush_mem {st : PeSt} (hst : PeStOk st) {ex : Example}
    (h : ex ∈ peFlush st) : ExOk ex := by
  cases st with
  | out => simp [peFlush] at h
  | sent acc =>
    simp only [peFlush] at h
    split at h
    · simp at h
    · rename_i hne
      simp only [List.mem_singleton] at h
      subst h
      refine ⟨by simpa [List.isEmpty_iff] using hne, ?_, by simp⟩
      intro ch hch
      simp only [List.mem_reverse] at hch
      exact hst ch hch
  | grp s gacc pending =>
    simp only [peFlush, List.mem_singleton] at h
    subst h
    refine ⟨by simpa using hst.1, ?_, ?_⟩
    · intro ch hch
      simp only [List.mem_reverse] at hch
      exact hst.2 ch hch
    · intro comp hcomp
      exact pcAux_mem _ none (by intro acc hacc; simp at hacc) comp hcomp

theorem peAux_mem (cs : List Char) : ∀ (st : PeSt), PeStOk st →
    ∀ ex ∈ peAux st cs, ExOk ex := by
  induction cs with
  | nil =>
    intro st hst ex h
    cases st <;> exact peFlush_mem hst h
  | cons c rest ih =>
    intro st hst ex h
    cases st with
    | out =>
      simp only [peAux] at h
      split at h
      · exact ih (.sent []) (by intro ch hch; simp at hch) ex h
      · exact ih .out trivial ex h
    | sent acc =>
      simp only [peAux] at h
      split at h
      · rcases List.mem_append.mp h with h | h
        · exact peFlush_mem hst h
        · exact ih (.sent []) (by intro ch hch; simp at hch) ex h
      · split at h
        · split at h
          · exact ih .out trivial ex h
          · rename_i hne
            refine ih (.grp acc [] true) ⟨by simpa [List.isEmpty_iff] using hne, hst⟩ ex h
        · rename_i hc1 hc2
          refine ih (.sent (c :: acc)) ?_ ex h
          intro ch hch
          rcases List.mem_cons.mp hch with rfl | hch
          · simp [isMarker, hc1, hc2]
          · exact hst ch hch
    | grp s gacc pending =>
      simp only [peAux] at h
      split at h
      · rcases List.mem_append.mp h with h | h
        · exact peFlush_mem hst h
        · exact ih (.sent []) (by intro ch hch; simp at hch) ex h
      · split at h
        · split at h
          · rcases List.mem_append.mp h with h | h
            · exact peFlush_mem hst h
            · exact ih .out trivial ex h
          · exact ih (.grp s gacc true) hst ex h
        · split at h
          · exact ih (.grp s (c :: '◆' :: gacc) false) hst ex h
          · exact ih (.grp s (c :: gacc) false) hst ex h

/-- Claim C9: every parsed `Complement` has a non-empty body free of the
markers `◆` and `■`; every parsed `Example` has a non-empty sentence free of
both markers (and likewise its complements); a `◆` followed by another
marker or the end of text yields no `Complement` (no empty one is ever
produced). -/
theorem claim_C9_component_invariants :
    (∀ cs : List Char, ∀ comp ∈ parse_complements cs,
        comp.body ≠ "" ∧ ∀ ch ∈ comp.body.data, ¬(ch = '◆' ∨ ch = '■')) ∧
    (∀ cs : List Char, ∀ ex ∈ parse_examples cs,
        ex.sentence ≠ "" ∧ (∀ ch ∈ ex.sentence.data, ¬(ch = '◆' ∨ ch = '■')) ∧
          ∀ comp ∈ ex.complements,
            comp.body ≠ "" ∧ ∀ ch ∈ comp.body.data, ¬(ch = '◆' ∨ ch = '■')) := by
  have hmark : ∀ ch : Char, isMarker ch = false → ¬(ch = '◆' ∨ ch = '■') := by
    intro ch h
    simpa [isMarker] using h
  have hstr : ∀ s : String, s.data ≠ [] → s ≠ "" := by
    intro s h hEq
    exact h (by rw [hEq])
  constructor
  · intro cs comp hcomp
    have := pcAux_mem cs none (by intro acc hacc; simp at hacc) comp hcomp
    exact ⟨hstr _ this.1, fun ch hch => hmark ch (this.2 ch hch)⟩
  · intro cs ex hex
    have := peAux_mem cs .out trivial ex hex
    refine ⟨hstr _ this.1, fun ch hch => hmark ch (this.2.1 ch hch), ?_⟩
    intro comp hcomp
    have h2 := this.2.2 comp hcomp
    exact ⟨hstr _ h2.1, fun ch hch => hmark ch (h2.2 ch hch)⟩

/-- Witness for C9 at a concrete input: the scenario line components. -/
theorem claim_C9_component_invariants_witness :
    (⟨"bbb"⟩ : Complement) ∈ parse_complements "◆bbb◆ccc".data ∧
    ("bbb" : String) ≠ "" ∧ ∀ ch ∈ "bbb".data, ¬(ch = '◆' ∨ ch = '■') := by
  have h : (⟨"bbb"⟩ : Complement) ∈ parse_complements "◆bbb◆ccc".data := by decide
  have h2 := claim_C9_component_invariants.1 "◆bbb◆ccc".data ⟨"bbb"⟩ h
  exact ⟨h, h2.1, h2.2⟩

/-- Claim C2: the single corpus line `■xxx : aaa◆bbb◆ccc■ddd◆eee■fff`
parses to headword `xxx`, no ident, explanation body `aaa` with complements
`bbb`, `ccc`, and examples `(ddd, [eee])`, `(fff, [])`, in those orders. -/
theorem claim_C2_scenario_line : parse_field "■xxx : aaa◆bbb◆ccc■ddd◆eee■fff".data =
    .ok ("xxx",
      { ident := none
        explanation := { body := "aaa", complements := [⟨"bbb"⟩, ⟨"ccc"⟩] }
        examples := [⟨"ddd", [⟨"eee"⟩]⟩, ⟨"fff", []⟩] }) := by decide

/-- Claim C10: parsing the empty corpus succeeds with an empty dictionary. -/
theorem claim_C10_empty_corpus : parse "" = .ok ⟨[], []⟩ := by decide

/-! ### Error conditions of `parse_field` (C5) -/

theorem startsWithSep_hasSepSub {cs : List Char} (h : startsWithSep cs = true) :
    hasSepSub cs = true := by
  cases cs with
  | nil => simp [startsWithSep] at h
  | cons c rest => simp [hasSepSub, h]

theorem hasSepSub_cons {c : Char} {rest : List Char} (h : hasSepSub rest = true) :
    hasSepSub (c :: rest) = true := by
  simp [hasSepSub, h]

theorem hasSepSub_drop {cs : List Char} : ∀ {n : Nat},
    hasSepSub (cs.drop n) = true → hasSepSub cs = true := by
  induction cs with
  | nil => intro n h; simpa using h
  | cons c rest ih =>
    intro n h
    cases n with
    | zero => exact h
    | succ n => exact hasSepSub_cons (ih (by simpa using h))

theorem lastBraceAux_hasSepSub {cs : List Char} {r : List Char × List Char}
    (h : lastBraceAux cs = some r) : hasSepSub cs = true := by
  induction cs generalizing r with
  | nil => simp [lastBraceAux] at h
  | cons c rest ih =>
    simp only [lastBraceAux] at h
    split at h
    · rename_i pre rem hrec
      exact hasSepSub_cons (ih hrec)
    · split at h
      · split at h
        · rename_i hsep
          exact hasSepSub_cons (startsWithSep_hasSepSub hsep)
        · simp at h
      · simp at h

theorem tryIdent_hasSepSub {cs : List Char} {r : List Char × List Char}
    (h : tryIdent cs = some r) : hasSepSub cs = true := by
  simp only [tryIdent] at h
  split at h
  · simp at h
  · split at h
    · rename_i b r2 hdrop
      split at h
      · split at h
        · rename_i pre rem hlb
          apply @hasSepSub_drop cs ((cs.takeWhile (fun c => c = ' ')).length)
          rw [hdrop]
          exact hasSepSub_cons (lastBraceAux_hasSepSub hlb)
        · simp at h
      · simp at h
    · simp at h

theorem scanItem_hasSepSub {rest : List Char} : ∀ {itemRev : List Char}
    {r : List Char × Option (List Char) × List Char},
    scanItem itemRev rest = some r → hasSepSub rest = true := by
  induction rest with
  | nil => intro itemRev r h; simp [scanItem] at h
  | cons c rest' ih =>
    intro itemRev r h
    simp only [scanItem] at h
    split at h
    · rename_i pr hti
      exact tryIdent_hasSepSub hti
    · split at h
      · rename_i rem hts
        simp only [trySep] at hts
        split at hts
        · rename_i hsep
          exact startsWithSep_hasSepSub hsep
        · simp at hts
      · exact hasSepSub_cons (ih h)

theorem matchAt_shape {cs : List Char} {r : String × Field}
    (h : matchAt cs = some r) :
    ∃ d rest, cs = '■' :: d :: rest ∧ hasSepSub rest = true := by
  match cs with
  | [] => simp [matchAt] at h
  | [c] => simp [matchAt] at h
  | c :: d :: rest =>
    simp only [matchAt] at h
    split at h
    · rename_i hc
      split at h
      · rename_i tr hsi
        exact ⟨d, rest, by rw [hc], scanItem_hasSepSub hsi⟩
      · simp at h
    · simp at h

theorem ffScan_shape {cs : List Char} {r : String × Field}
    (h : ffScan cs = some r) : '■' ∈ cs ∧ hasSepSub cs = true := by
  induction cs with
  | nil => simp [ffScan] at h
  | cons c rest ih =>
    simp only [ffScan] at h
    split at h
    · rename_i r2 hma
      rcases matchAt_shape hma with ⟨d, rest2, heq, hsep⟩
      have hc : c = '■' := by
        have := congrArg List.head? heq
        simpa using this
      refine ⟨by simp [hc], ?_⟩
      have hrest : rest = d :: rest2 := by
        have := congrArg List.tail heq
        simpa using this
      rw [hrest]
      exact hasSepSub_cons (hasSepSub_cons hsep)
    · have := ih h
      exact ⟨List.mem_cons_of_mem _ this.1, hasSepSub_cons this.2⟩

/-- Counterexample to claim C5 as stated: the line `a■b : ` lacks the
leading entry marker and has an empty (missing) explanation, yet
`parse_field` succeeds on it (the field regex is unanchored and accepts an
empty explanation body). -/
theorem claim_C5_counterexample :
    "a■b : ".data.head? ≠ some '■' ∧
      parse_field "a■b : ".data = .ok ("b", ⟨none, ⟨"", []⟩, []⟩) := by decide

/-- Claim C5 (amended): `parse_field` fails exactly when no position of the
line matches the field pattern; in particular it fails whenever the line
contains no `■` at all, or contains no `" : "` separator anywhere.  (A
leading marker is not required — the pattern may match mid-line — and an
empty explanation body is accepted.) -/
theorem claim_C5_malformed_line :
    (∀ cs : List Char, ¬ '■' ∈ cs → parse_field cs = .error "Invalid field format") ∧
    (∀ cs : List Char, hasSepSub cs = false →
      parse_field cs = .error "Invalid field format") := by
  constructor
  · intro cs hmem
    unfold parse_field
    rcases hff : ffScan cs with _ | r
    · rfl
    · exact absurd (ffScan_shape hff).1 hmem
  · intro cs hsep
    unfold parse_field
    rcases hff : ffScan cs with _ | r
    · rfl
    · rw [(ffScan_shape hff).2] at hsep
      simp at hsep

/-- Witness for the amended C5 at concrete inputs: a line with no entry
marker, and a line with a marker but no separator, both fail. -/
theorem claim_C5_malformed_line_witness :
    parse_field "no marker here".data = .error "Invalid field format" ∧
      parse_field "■no separator".data = .error "Invalid field format" :=
  ⟨claim_C5_malformed_line.1 "no marker here".data (by decide),
    claim_C5_malformed_line.2 "■no separator".data (by decide)⟩

/-! ### The builder loop (C3, C4, C8) -/

theorem IsLawfulCmp.lt_of_le_of_lt {f : α → α → Ordering} (h : IsLawfulCmp f)
    {a b c : α} (hab : f a b ≠ .gt) (hbc : f b c = .lt) : f a c = .lt := by
  rcases (h.not_gt_iff a b).mp hab with hab | rfl
  · exact h.lt_trans _ _ _ hab hbc
  · exact hbc

theorem entryLe_leKey {a b : Entry} (h : entryLe a b) : leKey a b := by
  intro hgt
  apply h
  unfold entryCmp
  rw [hgt]
  rfl

theorem parseLines_mem {ls : List (List Char)} : ∀ {n : Nat} {es : List Entry},
    parseLines n ls = .ok es → ∀ e ∈ es, ∃ l ∈ ls, parse_field l = .ok (e.1, e.2.1) := by
  induction ls with
  | nil =>
    intro n es h e he
    simp only [parseLines] at h
    cases h
    simp at he
  | cons l rest ih =>
    intro n es h e he
    simp only [parseLines] at h
    split at h
    · cases h
    · rename_i kf hl
      split at h
      · cases h
      · rename_i es' hrest
        cases h
        rcases List.mem_cons.mp he with rfl | he
        · exact ⟨l, List.mem_cons_self _ _, hl⟩
        · rcases ih hrest e he with ⟨l2, hl2, hpf⟩
          exact ⟨l2, List.mem_cons_of_mem _ hl2, hpf⟩

theorem parseLines_ok_of_all {ls : List (List Char)} : ∀ {n : Nat},
    (∀ l ∈ ls, (parse_field l).isOk = true) → ∃ es, parseLines n ls = .ok es := by
  induction ls with
  | nil => intro n _; exact ⟨[], rfl⟩
  | cons l rest ih =>
    intro n hall
    have hl := hall l (List.mem_cons_self _ _)
    rcases hpl : parse_field l with e | kf
    · rw [hpl] at hl
      simp [Except.isOk, Except.toBool] at hl
    · rcases @ih (n + 1) (fun l2 h2 => hall l2 (List.mem_cons_of_mem _ h2)) with ⟨es, hes⟩
      exact ⟨(kf.1, kf.2, n) :: es, by simp only [parseLines, hpl, hes]⟩

theorem parseLines_first_error {ls : List (List Char)} : ∀ {n j : Nat} {msg : String},
    j < ls.length →
    parse_field (ls.getD j []) = .error msg →
    (∀ i, i < j → (parse_field (ls.getD i [])).isOk = true) →
    parseLines n ls = .error (.lineError (n + j) msg) := by
  induction ls with
  | nil => intro n j msg hj; simp at hj
  | cons l rest ih =>
    intro n j msg hj herr hpre
    cases j with
    | zero =>
      simp only [List.getD_cons_zero] at herr
      simp only [parseLines, herr, Nat.add_zero]
    | succ j =>
      have hl := hpre 0 (Nat.succ_pos j)
      rcases hpl : parse_field l with e | kf
      · rw [show (l :: rest).getD 0 [] = l from rfl, hpl] at hl
        simp [Except.isOk, Except.toBool] at hl
      · have hrec := @ih (n + 1) j msg
          (by simpa using hj)
          (by simpa using herr)
          (fun i hi => by simpa using hpre (i + 1) (by omega))
        simp only [parseLines, hpl, hrec]
        congr 1
        congr 1
        omega

theorem pushOnLast_append (gs : List (List Field)) (g : List Field) (f : Field) :
    pushOnLast (gs ++ [g]) f = gs ++ [g ++ [f]] := by
  simp [pushOnLast]

theorem mbInsert_nil (k : String) (v : Nat) : mbInsert [] k v = .ok [(k, v)] := rfl

theorem mbInsert_concat {m0 : List (String × Nat)} {p : String} {v : Nat}
    {k : String} {val : Nat} (hlt : strCmp p k = .lt) :
    mbInsert (m0 ++ [(p, v)]) k val = .ok (m0 ++ [(p, v)] ++ [(k, val)]) := by
  simp [mbInsert, List.getLast?_concat, hlt]

/-- In a list whose values are `0, 1, 2, …`, the value of a member is its
position. -/
theorem snd_range_getD {l : List (String × Nat)}
    (h : l.map Prod.snd = List.range l.length) {kv : String × Nat} (hm : kv ∈ l) :
    kv.2 < l.length ∧ l.getD kv.2 ("", 0) = kv := by
  rcases List.mem_iff_getElem.mp hm with ⟨i, hi, hget⟩
  have hsnd : kv.2 = i := by
    have h1 : (l.map Prod.snd)[i]? = (List.range l.length)[i]? := by rw [h]
    rw [List.getElem?_map, List.getElem?_range hi] at h1
    rw [List.getElem?_eq_getElem hi, hget] at h1
    simpa using h1
  subst hsnd
  refine ⟨hi, ?_⟩
  rw [List.getD_eq_getElem l ("", 0) hi, hget]

theorem key_lt_of_pairwise_append {l1 l2 : List (String × Nat)}
    (h : (l1 ++ l2).Pairwise ltKey) : ∀ a ∈ l1, ∀ b ∈ l2, strCmp a.1 b.1 = .lt :=
  fun a ha b hb => (List.pairwise_append.mp h).2.2 a ha b hb

theorem notMem_right_of_pairwise_append {l1 l2 : List (String × Nat)}
    (h : (l1 ++ l2).Pairwise ltKey) : ∀ kv ∈ l2, kv ∉ l1 := by
  intro kv hkv2 hkv1
  have := key_lt_of_pairwise_append h kv hkv1 kv hkv2
  exact lawful_strCmp.ne_of_lt this rfl

theorem getD_concat_self {α : Type _} (l : List α) (x : α) (d : α) :
    (l ++ [x]).getD l.length d = x := by
  rw [List.getD_append_right l [x] d l.length (Nat.le_refl _)]
  simp

/-- Master specification of the grouping loop: starting from a consistent
builder state and a key-sorted entry list, the loop succeeds, keeps the map
strictly sorted with values `0, 1, 2, …`, and each key's group is its old
content extended by the fields of exactly its entries, in entry order. -/
theorem buildLoop_spec (es : List Entry) :
    ∀ (m : List (String × Nat)) (pk : Option String) (fs : List (List Field)),
    (∀ p, pk = some p → ∃ m0 v, m = m0 ++ [(p, v)]) →
    (pk = none → m = [] ∧ fs = []) →
    m.map Prod.snd = List.range m.length →
    fs.length = m.length →
    m.Pairwise ltKey →
    (∀ kv ∈ m, ∀ p, pk = some p → strCmp kv.1 p ≠ .gt) →
    es.Pairwise leKey →
    (∀ e ∈ es, ∀ p, pk = some p → strCmp p e.1 ≠ .gt) →
    ∃ mNew fs2,
      buildLoop es m pk fs = .ok (m ++ mNew, fs2) ∧
      (m ++ mNew).Pairwise ltKey ∧
      (m ++ mNew).map Prod.snd = List.range (m ++ mNew).length ∧
      fs2.length = (m ++ mNew).length ∧
      ∀ kv ∈ m ++ mNew,
        fs2.getD kv.2 [] =
          (if kv ∈ m then fs.getD kv.2 [] else []) ++
            (es.filter (fun e => e.1 = kv.1)).map (fun e => e.2.1) := by
  induction es with
  | nil =>
    intro m pk fs hsome hnone hvals hlen hinc hub hkeys hge
    refine ⟨[], fs, by simp [buildLoop], by simpa using hinc, by simpa using hvals,
      by simpa using hlen, ?_⟩
    intro kv hkv
    simp only [List.append_nil] at hkv
    simp [hkv]
  | cons e es' ih =>
    obtain ⟨k, f, n⟩ := e
    intro m pk fs hsome hnone hvals hlen hinc hub hkeys hge
    cases pk with
    | none =>
      obtain ⟨rfl, rfl⟩ := hnone rfl
      have hstep : buildLoop ((k, f, n) :: es') [] none [] =
          buildLoop es' [(k, 0)] (some k) [[f]] := by
        simp [buildLoop, mbInsert, pushOnLast]
      obtain ⟨mNew, fs2, hbl, hinc2, hvals2, hlen2, hD⟩ :=
        ih [(k, 0)] (some k) [[f]]
          (fun p hp => by cases hp; exact ⟨[], 0, rfl⟩)
          (by intro h; cases h)
          (by rfl)
          (by rfl)
          (by simp [ltKey])
          (by
            intro kv hkv p hp
            cases hp
            rcases List.mem_singleton.mp hkv with rfl
            rw [lawful_strCmp.refl_eq]
            simp)
          (List.Pairwise.of_cons hkeys)
          (by
            intro e' he' p hp
            cases hp
            exact (List.pairwise_cons.mp hkeys).1 e' he')
      refine ⟨(k, 0) :: mNew, fs2, ?_, ?_, ?_, ?_, ?_⟩
      · rw [hstep]
        exact hbl
      · exact hinc2
      · exact hvals2
      · exact hlen2
      · intro kv hkv
        simp only [List.nil_append] at hkv
        rw [if_neg (List.not_mem_nil kv)]
        rcases List.mem_cons.mp hkv with rfl | hkv2
        · have hD1 := hD (k, 0) (by simp)
          rw [if_pos (by simp)] at hD1
          simp only [List.getD_cons_zero] at hD1
          rw [hD1]
          rw [List.filter_cons_of_pos (by simp)]
          simp
        · have hnm : kv ∉ [(k, 0)] :=
            notMem_right_of_pairwise_append hinc2 kv hkv2
          have hD1 := hD kv (by simp [hkv2])
          rw [if_neg hnm] at hD1
          rw [hD1]
          have hne : ¬ ((k, f, n).1 = kv.1) := by
            have hlt := key_lt_of_pairwise_append hinc2 (k, 0) (by simp) kv hkv2
            exact fun h => lawful_strCmp.ne_of_lt hlt h
          rw [List.filter_cons_of_neg (by simpa using hne)]
    | some p =>
      obtain ⟨m0, v, rfl⟩ := hsome p rfl
      by_cases hpk : p = k
      · subst hpk
        obtain ⟨fs0, g, rfl⟩ : ∃ fs0 g, fs = fs0 ++ [g] := by
          rcases List.eq_nil_or_concat fs with rfl | ⟨L, b, h⟩
          · exfalso
            rw [List.length_nil] at hlen
            simp at hlen
          · exact ⟨L, b, by rw [h, List.concat_eq_append]⟩
        have hv : v = m0.length := by
          have h1 : List.map Prod.snd m0 ++ [v] =
              List.range m0.length ++ [m0.length] := by
            simpa [List.range_succ] using hvals
          simpa using (List.append_inj' h1 rfl).2
        have hlen0 : fs0.length = m0.length := by
          rw [List.length_append, List.length_append] at hlen
          simpa using hlen
        have hstep : buildLoop ((p, f, n) :: es') (m0 ++ [(p, v)]) (some p)
            (fs0 ++ [g]) =
            buildLoop es' (m0 ++ [(p, v)]) (some p) (fs0 ++ [g ++ [f]]) := by
          simp [buildLoop, pushOnLast_append]
        obtain ⟨mNew, fs2, hbl, hinc2, hvals2, hlen2, hD⟩ :=
          ih (m0 ++ [(p, v)]) (some p) (fs0 ++ [g ++ [f]])
            hsome
            (by intro h; cases h)
            hvals
            (by simpa using hlen)
            hinc
            hub
            (List.Pairwise.of_cons hkeys)
            (by
              intro e' he' p2 hp2
              cases hp2
              exact (List.pairwise_cons.mp hkeys).1 e' he')
        refine ⟨mNew, fs2, ?_, hinc2, hvals2, hlen2, ?_⟩
        · rw [hstep]
          exact hbl
        · intro kv hkv
          have hD1 := hD kv hkv
          rcases List.mem_append.mp hkv with hkvm | hkvnew
          · rw [if_pos hkvm] at hD1 ⊢
            rcases List.mem_append.mp hkvm with hkv0 | hkvlast
            · -- kv is in the older part: its key is < p and its group untouched
              have hkey_lt : strCmp kv.1 p = .lt :=
                key_lt_of_pairwise_append hinc kv hkv0 (p, v) (by simp)
              have hne : ¬ ((p, f, n).1 = kv.1) := fun h =>
                lawful_strCmp.ne_of_lt hkey_lt h.symm
              have hidx := snd_range_getD hvals hkvm
              have hidx0 : kv.2 < fs0.length := by
                rcases Nat.lt_or_ge kv.2 fs0.length with h | h
                · exact h
                · exfalso
                  have hlt2 : kv.2 < m0.length + 1 := by
                    simpa using hidx.1
                  have heq : kv.2 = m0.length := by omega
                  have := hidx.2
                  rw [heq, getD_concat_self] at this
                  rw [← this] at hkey_lt
                  exact lawful_strCmp.ne_of_lt hkey_lt rfl
              rw [List.getD_append fs0 [g ++ [f]] [] kv.2 hidx0] at hD1
              rw [List.getD_append fs0 [g] [] kv.2 hidx0]
              rw [hD1, List.filter_cons_of_neg (by simpa using hne)]
            · -- kv is the open (last) group: the field is appended to it
              rcases List.mem_singleton.mp hkvlast with rfl
              have hv0 : ((p : String), v).2 = fs0.length := by
                show v = fs0.length
                omega
              rw [hv0] at hD1 ⊢
              rw [getD_concat_self] at hD1 ⊢
              rw [hD1]
              rw [List.filter_cons_of_pos (by simp)]
              simp
          · have hnm : kv ∉ m0 ++ [(p, v)] :=
              notMem_right_of_pairwise_append hinc2 kv hkvnew
            rw [if_neg hnm] at hD1 ⊢
            have hne : ¬ ((p, f, n).1 = kv.1) := by
              have hlt := key_lt_of_pairwise_append hinc2 (p, v) (by simp) kv hkvnew
              exact fun h => lawful_strCmp.ne_of_lt hlt h
            rw [hD1, List.filter_cons_of_neg (by simpa using hne)]
      · -- a strictly larger key: a new group is opened
        have hlt : strCmp p k = .lt := by
          have h1 := hge (k, f, n) (List.mem_cons_self _ _) p rfl
          rcases (lawful_strCmp.not_gt_iff p k).mp h1 with h | h
          · exact h
          · exact absurd h hpk
        have hstep : buildLoop ((k, f, n) :: es') (m0 ++ [(p, v)]) (some p) fs =
            buildLoop es' (m0 ++ [(p, v)] ++ [(k, fs.length)]) (some k)
              (fs ++ [[f]]) := by
          have h2 : pushOnLast (fs ++ [[]]) f = fs ++ [[f]] := by
            simpa using pushOnLast_append fs [] f
          simp [buildLoop, hpk, mbInsert_concat hlt, h2]
        obtain ⟨mNew, fs2, hbl, hinc2, hvals2, hlen2, hD⟩ :=
          ih (m0 ++ [(p, v)] ++ [(k, fs.length)]) (some k) (fs ++ [[f]])
            (fun p2 hp2 => by cases hp2; exact ⟨m0 ++ [(p, v)], fs.length, rfl⟩)
            (by intro h; cases h)
            (by
              rw [List.map_append, hvals, hlen]
              simp [List.range_succ])
            (by simp [hlen])
            (by
              apply List.pairwise_append.mpr
              refine ⟨hinc, by simp, ?_⟩
              intro a ha b hb
              rcases List.mem_singleton.mp hb with rfl
              exact lawful_strCmp.lt_of_le_of_lt (hub a ha p rfl) hlt)
            (by
              intro kv hkv p2 hp2
              cases hp2
              rcases List.mem_append.mp hkv with h | h
              · have hlt2 := lawful_strCmp.lt_of_le_of_lt (hub kv h p rfl) hlt
                rw [hlt2]
                simp
              · rcases List.mem_singleton.mp h with rfl
                have hr := lawful_strCmp.refl_eq k
                show strCmp k k ≠ Ordering.gt
                rw [hr]
                simp)
            (List.Pairwise.of_cons hkeys)
            (fun e2 he2 p2 hp2 => by
              cases hp2
              exact (List.pairwise_cons.mp hkeys).1 e2 he2)
        have hassoc : m0 ++ [(p, v)] ++ ((k, fs.length) :: mNew) =
            m0 ++ [(p, v)] ++ [(k, fs.length)] ++ mNew := by
          simp
        refine ⟨(k, fs.length) :: mNew, fs2, ?_, ?_, ?_, ?_, ?_⟩
        · rw [hstep, hassoc]
          exact hbl
        · rw [hassoc]
          exact hinc2
        · rw [hassoc]
          exact hvals2
        · rw [hassoc]
          exact hlen2
        · intro kv hkv
          rw [hassoc] at hkv
          have hD1 := hD kv hkv
          rcases List.mem_append.mp hkv with hkvold | hkvnew2
          · rcases List.mem_append.mp hkvold with hkvm | hkvlast
            · -- kv is an old (closed) group
              rw [if_pos hkvm]
              rw [if_pos (List.mem_append_left _ hkvm)] at hD1
              have hidx := snd_range_getD hvals hkvm
              have hidxlt : kv.2 < fs.length := by
                rw [hlen]
                exact hidx.1
              rw [List.getD_append fs [[f]] [] kv.2 hidxlt] at hD1
              rw [hD1]
              have hne : ¬ ((k, f, n).1 = kv.1) := by
                have hle := hub kv hkvm p rfl
                have hlt2 := lawful_strCmp.lt_of_le_of_lt hle hlt
                exact fun h => lawful_strCmp.ne_of_lt hlt2 h.symm
              rw [List.filter_cons_of_neg (by simpa using hne)]
            · -- kv is the freshly opened group for k
              rcases List.mem_singleton.mp hkvlast with rfl
              have hnotm : ((k : String), fs.length) ∉ m0 ++ [(p, v)] := by
                intro hmem
                have hle := hub _ hmem p rfl
                have hlt2 := lawful_strCmp.lt_of_le_of_lt hle hlt
                exact lawful_strCmp.ne_of_lt hlt2 rfl
              rw [if_neg hnotm]
              rw [if_pos (List.mem_append_right _ (by simp))] at hD1
              have hgd : (fs ++ [[f]]).getD ((k : String), fs.length).2 [] = [f] :=
                getD_concat_self fs [f] []
              rw [hgd] at hD1
              rw [hD1]
              rw [List.filter_cons_of_pos (by simp)]
              simp
          · -- kv belongs to a later group
            have hnm2 : kv ∉ m0 ++ [(p, v)] ++ [(k, fs.length)] :=
              notMem_right_of_pairwise_append hinc2 kv hkvnew2
            have hnm : kv ∉ m0 ++ [(p, v)] := fun h => hnm2 (List.mem_append_left _ h)
            rw [if_neg hnm]
            rw [if_neg hnm2] at hD1
            rw [hD1]
            have hne : ¬ ((k, f, n).1 = kv.1) := by
              have hlt2 := key_lt_of_pairwise_append hinc2 (k, fs.length)
                (List.mem_append_right _ (by simp)) kv hkvnew2
              exact fun h => lawful_strCmp.ne_of_lt hlt2 h
            rw [List.filter_cons_of_neg (by simpa using hne)]

theorem sortEntries_pairwise (es : List Entry) : (sortEntries es).Pairwise leKey := by
  haveI : IsTotal Entry entryLe := ⟨lawful_entryCmp.le_total⟩
  haveI : IsTrans Entry entryLe := ⟨fun a b c => lawful_entryCmp.le_trans⟩
  have hs : (sortEntries es).Pairwise entryLe := List.sorted_insertionSort entryLe es
  exact hs.imp entryLe_leKey

theorem sortEntries_perm (es : List Entry) : (sortEntries es).Perm es :=
  List.perm_insertionSort entryLe es

/-- Everything `parse` guarantees about a successfully built dictionary. -/
theorem parse_ok_spec {text : String} {d : Dict} (h : parse text = .ok d) :
    ∃ es, parseLines 0 (rustLines text.data) = .ok es ∧
      d.keys.Pairwise ltKey ∧
      d.keys.map Prod.snd = List.range d.keys.length ∧
      d.fields.length = d.keys.length ∧
      ∀ kv ∈ d.keys, d.fields.getD kv.2 [] =
        ((sortEntries es).filter (fun e => e.1 = kv.1)).map (fun e => e.2.1) := by
  unfold parse at h
  split at h
  · simp at h
  · rename_i es hes
    split at h
    · simp at h
    · rename_i m fs hbuild
      simp only [Except.ok.injEq] at h
      subst h
      obtain ⟨mNew, fs2, hbl, hinc2, hvals2, hlen2, hD⟩ :=
        buildLoop_spec (sortEntries es) [] none []
          (fun p hp => nomatch hp) (fun _ => ⟨rfl, rfl⟩) rfl rfl List.Pairwise.nil
          (by intro kv hkv; simp at hkv)
          (sortEntries_pairwise es)
          (fun e he p hp => nomatch hp)
      rw [hbuild] at hbl
      simp only [Except.ok.injEq, Prod.mk.injEq, List.nil_append] at hbl
      obtain ⟨hm, hfs⟩ := hbl
      subst hm
      subst hfs
      refine ⟨es, hes, by simpa using hinc2, by simpa using hvals2,
        by simpa using hlen2, ?_⟩
      intro kv hkv
      have hD1 := hD kv (by simpa using hkv)
      rw [if_neg (List.not_mem_nil kv)] at hD1
      simpa using hD1

/-- Claim C3: in every dictionary produced by `parse`, the stored headwords
are pairwise distinct and strictly increasing byte-lexicographically, every
stored group id is a valid position into the fields table, and every stored
field comes from a corpus line whose parsed headword is the headword mapped
to its group. -/
theorem claim_C3_dictionary_invariant :
    ∀ (text : String) (d : Dict), parse text = .ok d →
      d.keys.Pairwise (fun a b => strCmp a.1 b.1 = Ordering.lt) ∧
      (∀ kv ∈ d.keys, kv.2 < d.fields.length) ∧
      (∀ kv ∈ d.keys, ∀ f ∈ d.fields.getD kv.2 [],
        ∃ l ∈ rustLines text.data, parse_field l = .ok (kv.1, f)) := by
  intro text d h
  obtain ⟨es, hes, hinc, hvals, hlen, hD⟩ := parse_ok_spec h
  refine ⟨hinc, ?_, ?_⟩
  · intro kv hkv
    rw [hlen]
    exact (snd_range_getD hvals hkv).1
  · intro kv hkv f hf
    rw [hD kv hkv] at hf
    simp only [List.mem_map, List.mem_filter] at hf
    obtain ⟨e, ⟨hmem, hkey⟩, hfld⟩ := hf
    have hmem2 : e ∈ es := (sortEntries_perm es).mem_iff.mp hmem
    obtain ⟨l, hl, hpf⟩ := parseLines_mem hes e hmem2
    refine ⟨l, hl, ?_⟩
    rw [hpf, (by simpa using hkey : e.1 = kv.1), hfld]

/-- Witness for C3: the two-line corpus `■b : 1` / `■a : 2`. -/
theorem claim_C3_dictionary_invariant_witness :
    (Dict.mk [("a", 0), ("b", 1)]
        [[⟨none, ⟨"2", []⟩, []⟩], [⟨none, ⟨"1", []⟩, []⟩]]).keys.Pairwise
      (fun a b => strCmp a.1 b.1 = Ordering.lt) ∧
    (∀ kv ∈ (Dict.mk [("a", 0), ("b", 1)]
        [[⟨none, ⟨"2", []⟩, []⟩], [⟨none, ⟨"1", []⟩, []⟩]]).keys,
      kv.2 < (Dict.mk [("a", 0), ("b", 1)]
        [[⟨none, ⟨"2", []⟩, []⟩], [⟨none, ⟨"1", []⟩, []⟩]]).fields.length) ∧
    (∀ kv ∈ (Dict.mk [("a", 0), ("b", 1)]
        [[⟨none, ⟨"2", []⟩, []⟩], [⟨none, ⟨"1", []⟩, []⟩]]).keys,
      ∀ f ∈ (Dict.mk [("a", 0), ("b", 1)]
        [[⟨none, ⟨"2", []⟩, []⟩], [⟨none, ⟨"1", []⟩, []⟩]]).fields.getD kv.2 [],
      ∃ l ∈ rustLines "■b : 1\n■a : 2".data, parse_field l = .ok (kv.1, f)) :=
  claim_C3_dictionary_invariant "■b : 1\n■a : 2" _ (by decide)

/-- Claim C4: within each headword's group, the fields appear in the order
produced by sorting all parsed entries by the derived order on
`(headword, Field, line index)` — structural field comparison first, input
order only as the final tie-break. -/
theorem claim_C4_group_field_order :
    ∀ (text : String) (es : List Entry) (d : Dict),
      parseLines 0 (rustLines text.data) = .ok es →
      parse text = .ok d →
      ∀ kv ∈ d.keys,
        d.fields.getD kv.2 [] =
          ((sortEntries es).filter (fun e => e.1 = kv.1)).map (fun e => e.2.1) := by
  intro text es d hes h kv hkv
  obtain ⟨es2, hes2, _, _, _, hD⟩ := parse_ok_spec h
  rw [hes] at hes2
  simp only [Except.ok.injEq] at hes2
  subst hes2
  exact hD kv hkv

/-- Witness for C4: two lines with the same headword `b` whose fields come
out structurally sorted (`0` before `1`), not in input order. -/
theorem claim_C4_group_field_order_witness :
    (Dict.mk [("a", 0), ("b", 1)]
        [[⟨none, ⟨"2", []⟩, []⟩],
         [⟨none, ⟨"0", []⟩, []⟩, ⟨none, ⟨"1", []⟩, []⟩]]).fields.getD 1 [] =
      ((sortEntries [("b", ⟨none, ⟨"1", []⟩, []⟩, 0), ("a", ⟨none, ⟨"2", []⟩, []⟩, 1),
          ("b", ⟨none, ⟨"0", []⟩, []⟩, 2)]).filter
        (fun e => e.1 = "b")).map (fun e => e.2.1) :=
  claim_C4_group_field_order "■b : 1\n■a : 2\n■b : 0" _ _ (by decide) (by decide)
    ("b", 1) (by decide)

/-- Claim C8: `parse` either parses every line and returns one complete
dictionary, or returns the error of the first failing line annotated with
that line's index; no dictionary is returned when a line is malformed. -/
theorem claim_C8_whole_parse :
    (∀ text : String, (∀ l ∈ rustLines text.data, (parse_field l).isOk = true) →
        ∃ d, parse text = .ok d) ∧
    (∀ (text : String) (j : Nat) (msg : String),
        j < (rustLines text.data).length →
        parse_field ((rustLines text.data).getD j []) = .error msg →
        (∀ i, i < j → (parse_field ((rustLines text.data).getD i [])).isOk = true) →
        parse text = .error (.lineError j msg)) := by
  constructor
  · intro text hall
    obtain ⟨es, hes⟩ := parseLines_ok_of_all hall
    obtain ⟨mNew, fs2, hbl, _, _, _, _⟩ :=
      buildLoop_spec (sortEntries es) [] none []
        (fun p hp => nomatch hp) (fun _ => ⟨rfl, rfl⟩) rfl rfl List.Pairwise.nil
        (by intro kv hkv; simp at hkv)
        (sortEntries_pairwise es)
        (fun e he p hp => nomatch hp)
    refine ⟨⟨mNew, fs2⟩, ?_⟩
    unfold parse
    rw [hes]
    simp [hbl]
  · intro text j msg hj herr hpre
    have hfirst := @parseLines_first_error _ 0 j msg hj herr hpre
    unfold parse
    rw [hfirst]
    simp

/-- Witness for C8: an all-good corpus builds, and a corpus whose second
line is bad fails with that line's index. -/
theorem claim_C8_whole_parse_witness :
    (∃ d, parse "■a : x" = .ok d) ∧
      parse "■a : x\nbad" = .error (.lineError 1 "Invalid field format") :=
  ⟨claim_C8_whole_parse.1 "■a : x" (by decide),
    claim_C8_whole_parse.2 "■a : x\nbad" 1 "Invalid field format" (by decide)
      (by decide) (by decide)⟩

/-! ### Exact lookup at edit distance 0 (C7) -/

theorem levF_eq_zero_iff : ∀ (fuel : Nat) (xs ys : List Char),
    xs.length + ys.length ≤ fuel → (levF fuel xs ys = 0 ↔ xs = ys) := by
  intro fuel
  induction fuel with
  | zero =>
    intro xs ys h
    cases xs with
    | nil =>
      cases ys with
      | nil => simp [levF]
      | cons y ys => simp at h
    | cons x xs =>
      exfalso
      simp at h
  | succ fuel ih =>
    intro xs ys h
    cases xs with
    | nil =>
      simp only [levF]
      rw [List.length_eq_zero]
      exact ⟨fun h2 => h2.symm, fun h2 => h2.symm⟩
    | cons x xs =>
      cases ys with
      | nil => simp [levF]
      | cons y ys =>
        simp only [levF]
        by_cases hxy : x = y
        · rw [if_pos hxy]
          subst hxy
          rw [ih xs ys (by simp at h; omega)]
          simp
        · rw [if_neg hxy]
          constructor
          · intro h0; omega
          · intro heq
            injection heq with h1 h2
            exact absurd h1 hxy

theorem lev_eq_zero_iff (xs ys : List Char) : lev xs ys = 0 ↔ xs = ys :=
  levF_eq_zero_iff _ xs ys (Nat.le_refl _)

/-- In a strictly key-sorted association list, filtering on a present key
yields exactly its one binding. -/
theorem filter_keys_eq {l : List (String × Nat)} (hp : l.Pairwise ltKey)
    {q : String} {i : Nat} (hmem : (q, i) ∈ l) :
    l.filter (fun kv => kv.1 = q) = [(q, i)] := by
  induction l with
  | nil => simp at hmem
  | cons x xs ih =>
    rcases List.mem_cons.mp hmem with rfl | hmem2
    · rw [List.filter_cons_of_pos (by simp)]
      have hrest : xs.filter (fun kv => decide (kv.1 = q)) = [] := by
        rw [List.filter_eq_nil_iff]
        intro kv hkv
        have hlt := (List.pairwise_cons.mp hp).1 kv hkv
        simp only [decide_eq_true_eq]
        intro hkv1
        exact lawful_strCmp.ne_of_lt hlt hkv1.symm
      rw [hrest]
    · have hx : ¬ (x.1 = q) := by
        have hlt := (List.pairwise_cons.mp hp).1 (q, i) hmem2
        exact fun h2 => lawful_strCmp.ne_of_lt hlt h2
      rw [List.filter_cons_of_neg (by simpa using hx)]
      exact ih (List.Pairwise.of_cons hp) hmem2

/-- Claim C7: at edit-distance budget 0, search hits iff the query is a
stored headword, and then returns exactly the one matching group. -/
theorem claim_C7_exact_search :
    ∀ (text : String) (d : Dict), parse text = .ok d → ∀ q : String,
      (search d q 0 ≠ [] ↔ q ∈ d.keys.map Prod.fst) ∧
      (∀ i, (q, i) ∈ d.keys → search d q 0 = [(q, d.fields.getD i [])]) := by
  intro text d h q
  obtain ⟨es, hes, hinc, hvals, hlen, hD⟩ := parse_ok_spec h
  have hfeq : d.keys.filter (fun kv => decide (lev q.data kv.1.data ≤ 0)) =
      d.keys.filter (fun kv => decide (kv.1 = q)) := by
    apply List.filter_congr
    intro kv _
    simp only [decide_eq_decide, Nat.le_zero, lev_eq_zero_iff]
    constructor
    · intro hd
      exact (String.ext hd).symm
    · intro hk
      rw [hk]
  constructor
  · constructor
    · intro hne
      unfold search at hne
      rw [hfeq] at hne
      rcases h2 : d.keys.filter (fun kv => decide (kv.1 = q)) with _ | ⟨kv, rest⟩
      · rw [h2] at hne
        simp at hne
      · have hkv : kv ∈ d.keys.filter (fun kv => decide (kv.1 = q)) := by
          rw [h2]
          exact List.mem_cons_self _ _
        have h3 := List.mem_filter.mp hkv
        have h4 : kv.1 = q := by simpa using h3.2
        exact h4 ▸ List.mem_map_of_mem Prod.fst h3.1
    · intro hq
      obtain ⟨kv, hkv, hfst⟩ := List.mem_map.mp hq
      obtain ⟨q2, i⟩ := kv
      cases hfst
      unfold search
      rw [hfeq, filter_keys_eq hinc hkv]
      simp
  · intro i hi
    unfold search
    rw [hfeq, filter_keys_eq hinc hi]
    rfl

/-- Witness for C7: exact lookup of `xxx` in the one-line dictionary. -/
theorem claim_C7_exact_search_witness :
    search (Dict.mk [("xxx", 0)] [[⟨none, ⟨"aaa", []⟩, []⟩]]) "xxx" 0 =
      [("xxx", [⟨none, ⟨"aaa", []⟩, []⟩])] :=
  (claim_C7_exact_search "■xxx : aaa" _ (by decide) "xxx").2 0 (by decide)

/-! ### Snapshot round-trip (C1) and load failures (C6) -/

theorem decTake_exact {n : Nat} {l rest : List Nat} (h : l.length = n) :
    decTake n (l ++ rest) = some (l, rest) := by
  unfold decTake
  rw [if_pos (by simp [← h])]
  subst h
  rw [List.take_left, List.drop_left]

theorem decStr_enc (s : String) (rest : List Nat) :
    decStr (encStr s ++ rest) = some (s, rest) := by
  have hvalid : (s.data.map Char.toNat).all (fun t => decide t.isValidChar) = true := by
    rw [List.all_eq_true]
    intro t ht
    obtain ⟨c, hc, rfl⟩ := List.mem_map.mp ht
    simpa using decide_eq_true c.valid
  have hmap : List.map Char.ofNat (List.map Char.toNat s.data) = s.data := by
    rw [List.map_map]
    rw [show s.data.map (Char.ofNat ∘ Char.toNat) = s.data.map id from
      List.map_congr_left (fun c _ => Char.ofNat_toNat c)]
    rw [List.map_id]
  simp only [encStr, List.cons_append, decStr, decNat]
  rw [decTake_exact (List.length_map _ _)]
  simp [hvalid, hmap]
  intro c _ h1
  have h2 := c.valid
  have h3 : c.toNat = c.val.toNat := rfl
  rcases h2 with h | ⟨ha, hb⟩
  · rw [h3] at h1
    omega
  · rw [h3] at h1 ⊢
    exact ⟨ha, hb⟩

theorem decListAux_enc {α : Type _} {enc : α → List Nat}
    {dec : List Nat → Option (α × List Nat)}
    (hrt : ∀ a rest, dec (enc a ++ rest) = some (a, rest)) :
    ∀ (xs : List α) (rest : List Nat),
      decListAux dec xs.length ((xs.map enc).flatten ++ rest) = some (xs, rest) := by
  intro xs
  induction xs with
  | nil =>
    intro rest
    simp [decListAux]
  | cons a as ih =>
    intro rest
    simp only [List.map_cons, List.flatten_cons, List.length_cons, decListAux,
      List.append_assoc]
    rw [hrt a ((as.map enc).flatten ++ rest)]
    simp [ih rest]

theorem decList_enc {α : Type _} {enc : α → List Nat}
    {dec : List Nat → Option (α × List Nat)}
    (hrt : ∀ a rest, dec (enc a ++ rest) = some (a, rest))
    (xs : List α) (rest : List Nat) :
    decList dec (encList enc xs ++ rest) = some (xs, rest) := by
  simp only [encList, List.cons_append, decList, decNat]
  exact decListAux_enc hrt xs rest

theorem decComplement_enc (c : Complement) (rest : List Nat) :
    decComplement (encComplement c ++ rest) = some (c, rest) := by
  obtain ⟨b⟩ := c
  simp [encComplement, decComplement, decStr_enc]

theorem decExplanation_enc (e : Explanation) (rest : List Nat) :
    decExplanation (encExplanation e ++ rest) = some (e, rest) := by
  obtain ⟨b, cs⟩ := e
  simp only [encExplanation, List.append_assoc, decExplanation]
  rw [decStr_enc]
  simp [decList_enc decComplement_enc]

theorem decExample_enc (e : Example) (rest : List Nat) :
    decExample (encExample e ++ rest) = some (e, rest) := by
  obtain ⟨b, cs⟩ := e
  simp only [encExample, List.append_assoc, decExample]
  rw [decStr_enc]
  simp [decList_enc decComplement_enc]

theorem decOpt_enc (o : Option String) (rest : List Nat) :
    decOpt (encOpt o ++ rest) = some (o, rest) := by
  cases o with
  | none => rfl
  | some s =>
    simp only [encOpt, List.cons_append, decOpt]
    rw [decStr_enc]

theorem decField_enc (f : Field) (rest : List Nat) :
    decField (encField f ++ rest) = some (f, rest) := by
  obtain ⟨id, ex, exs⟩ := f
  simp only [encField, List.append_assoc, decField]
  rw [decOpt_enc]
  simp [decExplanation_enc, decList_enc decExample_enc]

theorem decKV_enc (kv : String × Nat) (rest : List Nat) :
    decKV ((encStr kv.1 ++ [kv.2]) ++ rest) = some (kv, rest) := by
  obtain ⟨k, v⟩ := kv
  simp only [List.append_assoc, List.singleton_append, decKV]
  rw [decStr_enc]
  simp [decNat]

theorem incKeys_of_pairwise {m : List (String × Nat)} (h : m.Pairwise ltKey) :
    incKeys m = true := by
  induction h with
  | nil => rfl
  | cons ha hpw ih =>
    rename_i a l
    cases l with
    | nil => rfl
    | cons b bs =>
      simp only [incKeys, Bool.and_eq_true]
      exact ⟨by simpa using ha b (by simp), ih⟩

theorem fstDecode_enc {m : List (String × Nat)} (h : m.Pairwise ltKey) :
    fstDecode (fstEncode m) = some m := by
  unfold fstDecode fstEncode
  have h2 := decList_enc (fun kv rest => decKV_enc kv rest) m []
  rw [List.append_nil] at h2
  rw [h2]
  simp [incKeys_of_pairwise h]

theorem load_save {d : Dict} (h : d.keys.Pairwise ltKey) : load (save d) = .ok d := by
  obtain ⟨keys, fields⟩ := d
  have h3 := decList_enc (fun g rest => decList_enc decField_enc g rest) fields []
  rw [List.append_nil] at h3
  simp only [save, load, List.cons_append, decNat]
  rw [decTake_exact rfl]
  simp [fstDecode_enc h, h3]

/-- Claim C1: serializing then deserializing any dictionary produced by
`parse` succeeds and returns the identical dictionary (same sorted
headwords, same group ids, same field groups in order). -/
theorem claim_C1_roundtrip :
    ∀ (text : String) (d : Dict), parse text = .ok d → load (save d) = .ok d := by
  intro text d h
  obtain ⟨es, hes, hinc, _, _, _⟩ := parse_ok_spec h
  exact load_save hinc

/-- Witness for C1 on the one-line corpus `■xxx : aaa`. -/
theorem claim_C1_roundtrip_witness :
    load (save (Dict.mk [("xxx", 0)] [[⟨none, ⟨"aaa", []⟩, []⟩]])) =
      .ok (Dict.mk [("xxx", 0)] [[⟨none, ⟨"aaa", []⟩, []⟩]]) :=
  claim_C1_roundtrip "■xxx : aaa" _ (by decide)

/-- Counterexample to claim C6 as stated: a buffer whose transducer blob is
invalid makes `load` panic (`Map::new(keys_bytes).unwrap()`), it does not
return a typed error. -/
theorem claim_C6_counterexample :
    fstDecode [999] = none ∧ load [1, 999] = .panicked := by decide

/-- Claim C6 (amended): a buffer whose declared lengths are inconsistent
with its size, or whose groups table is malformed, makes `load` return a
typed error; but a buffer whose transducer blob does not parse as a valid
sorted automaton makes `load` panic instead of returning an error. -/
theorem claim_C6_load_failures :
    (∀ (bs : List Nat) (n : Nat) (rest : List Nat),
      decNat bs = some (n, rest) → rest.length < n →
      load bs = .err "unexpected end of buffer") ∧
    (∀ (bs : List Nat) (n : Nat) (rest kb rest2 : List Nat),
      decNat bs = some (n, rest) → decTake n rest = some (kb, rest2) →
      fstDecode kb = none → load bs = .panicked) ∧
    (∀ (bs : List Nat) (n : Nat) (rest kb rest2 : List Nat)
        (keys : List (String × Nat)),
      decNat bs = some (n, rest) → decTake n rest = some (kb, rest2) →
      fstDecode kb = some keys → decList (decList decField) rest2 = none →
      load bs = .err "invalid groups table") := by
  refine ⟨?_, ?_, ?_⟩
  · intro bs n rest h1 h2
    simp only [load, h1]
    unfold decTake
    rw [if_neg (by omega)]
  · intro bs n rest kb rest2 h1 h2 h3
    simp only [load, h1, h2, h3]
  · intro bs n rest kb rest2 keys h1 h2 h3 h4
    simp only [load, h1, h2, h3, h4]

/-- Witness for the amended C6 at concrete buffers. -/
theorem claim_C6_load_failures_witness :
    load [5, 1] = .err "unexpected end of buffer" ∧
      load [1, 999] = .panicked ∧
      load [1, 0, 5] = .err "invalid groups table" :=
  ⟨claim_C6_load_failures.1 [5, 1] 5 [1] (by decide) (by decide),
    claim_C6_load_failures.2.1 [1, 999] 1 [999] [999] [] (by decide) (by decide)
      (by decide),
    claim_C6_load_failures.2.2 [1, 0, 5] 1 [0, 5] [0] [5] [] (by decide) (by decide)
      (by decide) (by decide)⟩

end Eijiro
